import Mathlib

/-!
Verification development for a p-adic arithmetic engine.

The repository ships a tutorial file (`sage/rings/padics/tutorial.py`) whose
doctests exercise the engine: fixed-modulus, capped-absolute and
capped-relative precision policies, a lazy digit-stream engine, a
self-reference resolver and an equality comparator.  The engine itself is not
part of the repository sources, so the definitions below are shallow
embeddings modelled from the specification, validated against the concrete
doctest values of the tutorial.
-/

namespace PadicCore

/-- Modelled from the spec: the error taxonomy of §7 (the implementation of
the error classes is not in the repository sources). -/
inductive Err where
  | invalidOperation
  | noSquareRoot
  | precisionError
  | circularDefinition
deriving DecidableEq

def exceptDecEq {ε α : Type} [DecidableEq ε] [DecidableEq α] :
    (a b : Except ε α) → Decidable (a = b)
  | Except.error e, Except.error f =>
    if h : e = f then Decidable.isTrue (by rw [h])
    else Decidable.isFalse (by intro hef; cases hef; exact h rfl)
  | Except.error _, Except.ok _ => Decidable.isFalse (by intro h; cases h)
  | Except.ok _, Except.error _ => Decidable.isFalse (by intro h; cases h)
  | Except.ok a, Except.ok b =>
    if h : a = b then Decidable.isTrue (by rw [h])
    else Decidable.isFalse (by intro hab; cases hab; exact h rfl)

instance {ε α : Type} [DecidableEq ε] [DecidableEq α] : DecidableEq (Except ε α) :=
  exceptDecEq

/-! ### Digit store -/

/-- Modelled from the spec: the digit store (§2.1, §3 DigitSequence); little
endian base-`p` digits of `x`, padded/truncated to exactly `n` digits. -/
def toDigits (p : ℕ) : ℕ → ℕ → List ℕ
  | 0, _ => []
  | n + 1, x => x % p :: toDigits p n (x / p)

/-- The integer value of a little-endian base-`p` digit list. -/
def digitsVal (p : ℕ) (ds : List ℕ) : ℕ := ds.foldr (fun d acc => d + p * acc) 0

/-- Modelled from the spec: digit-wise addition with base-`p` carry
propagation (§4.1), on two digit lists of the same length, dropping the final
carry (reduction modulo `p ^ length`). -/
def addCarry (p : ℕ) : List ℕ → List ℕ → ℕ → List ℕ
  | a :: as, b :: bs, c => (a + b + c) % p :: addCarry p as bs ((a + b + c) / p)
  | _, _, _ => []

/-- Fuel-driven worker for `valP`. -/
def valPF (p : ℕ) : ℕ → ℕ → ℕ
  | 0, _ => 0
  | fuel + 1, x =>
    if 2 ≤ p ∧ x ≠ 0 ∧ x % p = 0 then valPF p fuel (x / p) + 1 else 0

/-- Modelled from the spec: the `p`-adic valuation of a nonzero integer
(§3 Valuation); `valP p 0 = 0` is a sentinel, the claims only use it on
nonzero values. -/
def valP (p x : ℕ) : ℕ := valPF p x x

/-! ### Unit inversion by Hensel lifting -/

/-- Modelled from the spec: the single-digit initial inverse found by
exhaustive search over `[1, p)` (§4.1 unit inversion). -/
def inv1 (p u : ℕ) : ℕ := (((List.range p).find? fun d => u * d % p == 1).getD 0)

/-- Newton iteration `v ← v * (2 - u * v) mod m`, doubling the number of
correct digits at each step. -/
def henselIter (m u : ℤ) : ℕ → ℤ → ℤ
  | 0, v => v
  | k + 1, v => henselIter m u k (v * (2 - u * v) % m)

/-- Modelled from the spec: inverse of the unit `u` modulo `p ^ r` by
digit-wise Newton/Hensel lifting (§4.1); `r` lifting steps are more than
enough since each step doubles the number of correct digits. -/
def henselInv (p u r : ℕ) : ℕ :=
  (henselIter ((p : ℤ) ^ r) (u : ℤ) r ((inv1 p u : ℕ) : ℤ)).toNat

/-! ### Fixed-modulus elements: a digit list of fixed length `n` -/

/-- Modelled from the spec: the fixed-modulus constructor `R(x)` (§3
`FixedModulus{n}`): store exactly `n` base-`p` digits of `x`. -/
def fmOfNat (p n x : ℕ) : List ℕ := toDigits p n x

/-- Modelled from the spec: fixed-modulus addition (§4.1): digit-wise with
carry, keeping exactly `n` digits, never reporting precision loss. -/
def fmAdd (p : ℕ) (a b : List ℕ) : List ℕ := addCarry p a b 0

/-- Modelled from the spec: fixed-modulus true division (§4.1 Division):
requires the divisor to be a unit (leading digit nonzero), fails with
`invalidOperation` otherwise, never falling back to floor division. -/
def fmDiv (p n : ℕ) (a b : List ℕ) : Except Err (List ℕ) :=
  if digitsVal p b % p = 0 then Except.error Err.invalidOperation
  else Except.ok (fmOfNat p n (digitsVal p a * henselInv p (digitsVal p b % p ^ n) n % p ^ n))

/-- Modelled from the spec: fixed-modulus floor division by an arbitrary
nonzero divisor (tutorial lines 168-195): shift away the divisor's valuation,
then multiply by the inverse of its unit part, keeping `n` digits. -/
def fmFloordiv (p n : ℕ) (a b : List ℕ) : Except Err (List ℕ) :=
  if digitsVal p b = 0 then Except.error Err.invalidOperation
  else
    Except.ok (fmOfNat p n
      (digitsVal p a / p ^ valP p (digitsVal p b) *
        henselInv p (digitsVal p b / p ^ valP p (digitsVal p b)) n % p ^ n))

/-! ### Capped-absolute elements -/

/-- Modelled from the spec: a capped-absolute element (§3
`CappedAbsolute{n}`): a value together with its own absolute precision. -/
structure CAElem where
  val : ℕ
  aprec : ℕ
deriving DecidableEq

/-- Capped-absolute constructor with ring cap `N`. -/
def caOfNat (p N x : ℕ) : CAElem := ⟨x % p ^ N, N⟩

/-- Modelled from the spec: capped-absolute addition (§4.1): result absolute
precision is the minimum of the operands' precisions. -/
def caAdd (p : ℕ) (a b : CAElem) : CAElem :=
  ⟨(a.val + b.val) % p ^ min a.aprec b.aprec, min a.aprec b.aprec⟩

/-- Modelled from the spec: floor division by `p` (§4.1): a pure digit shift
which reduces the absolute precision by exactly 1. -/
def caFloordivP (p : ℕ) (a : CAElem) : CAElem := ⟨a.val / p, a.aprec - 1⟩

/-- Valuation of a capped-absolute element. -/
def caValuation (p : ℕ) (a : CAElem) : ℕ := valP p a.val

/-- Modelled from the spec: a capped-relative element (§3
`CappedRelative{n}`): valuation (an integer, negative valuations arise in the
field), unit part, and relative precision. -/
structure CRElem where
  valu : ℤ
  unitPart : ℕ
  rprec : ℕ
deriving DecidableEq

/-- Modelled from the spec: re-minimization of the valuation (§4.1): strip the
`p`-factors of the unit part into the valuation, losing the corresponding
relative precision. -/
def crNorm (p : ℕ) (a : CRElem) : CRElem :=
  if a.unitPart = 0 then ⟨a.valu, 0, 0⟩
  else ⟨a.valu + (valP p a.unitPart : ℤ),
        a.unitPart / p ^ valP p a.unitPart,
        a.rprec - valP p a.unitPart⟩

/-- Modelled from the spec: capped-relative multiplication (§4.1): valuations
add, relative precision is the minimum of the operands' relative
precisions; the result is re-normalized. -/
def crMul (p : ℕ) (a b : CRElem) : CRElem :=
  crNorm p ⟨a.valu + b.valu,
            a.unitPart * b.unitPart % p ^ min a.rprec b.rprec,
            min a.rprec b.rprec⟩

/-- Modelled from the spec: division on capped-absolute operands (§4.1
Division, tutorial lines 241-245): fails on a zero divisor, otherwise the
result is promoted to a capped-relative field element whose valuation is the
difference of valuations and whose relative precision is the minimum of the
operands' relative precisions. -/
def caDiv (p : ℕ) (a b : CAElem) : Except Err CRElem :=
  if b.val = 0 then Except.error Err.invalidOperation
  else
    Except.ok ⟨(valP p a.val : ℤ) - (valP p b.val : ℤ),
      a.val / p ^ valP p a.val *
        henselInv p (b.val / p ^ valP p b.val)
          (min (a.aprec - valP p a.val) (b.aprec - valP p b.val)) %
        p ^ min (a.aprec - valP p a.val) (b.aprec - valP p b.val),
      min (a.aprec - valP p a.val) (b.aprec - valP p b.val)⟩

/-! ### Lazy digit engine -/

/-- Modelled from the spec: a lazy element (§3 LazyElement): a digit
generator together with a memoized, monotonically growing prefix of
materialized digits. -/
structure LazyElem where
  gen : ℕ → ℕ
  memo : List ℕ

/-- Modelled from the spec: `at_precision_absolute(n)` (§4.2): the digit
sequence of the element valid modulo `p ^ n`. -/
def atPrecisionAbsolute (x : LazyElem) (n : ℕ) : List ℕ := (List.range n).map x.gen

/-- Modelled from the spec: `ensure_materialized` (§4.2): if the memo already
covers the requested index return the element unchanged, otherwise append the
generator's digits beyond the current frontier. -/
def ensureMaterialized (x : LazyElem) (k : ℕ) : LazyElem :=
  if k ≤ x.memo.length then x
  else ⟨x.gen, x.memo ++ (List.range (k - x.memo.length)).map fun i => x.gen (x.memo.length + i)⟩

/-- The memo of a lazy element agrees with its generator. -/
def validMemo (x : LazyElem) : Prop := x.memo = atPrecisionAbsolute x x.memo.length

/-- Modelled from the spec: `precision_absolute()` reports `+∞` for any lazy
element that has not hit an internal cap (§4.2). -/
def precisionAbsolute (_ : LazyElem) : ℕ∞ := ⊤

/-! ### Comparator -/

/-- Modelled from the spec: unconditional equality between two lazy elements
(§4.4): materialize up to the default precision `pr`; a found difference
yields a definitive `false`, absence of a difference never proves equality
and raises `precisionError`. -/
def lazyEqUncond (pr : ℕ) (x y : LazyElem) : Except Err Bool :=
  if (List.range pr).any (fun k => x.gen k != y.gen k) then Except.ok false
  else Except.error Err.precisionError

/-- Modelled from the spec: bounded-precision equality
`a.at_precision_absolute(n) == b.at_precision_absolute(n)` (§4.4), always
returning a definitive boolean. -/
def lazyEqAtPrec (n : ℕ) (x y : LazyElem) : Bool :=
  atPrecisionAbsolute x n == atPrecisionAbsolute y n

/-! ### Self-reference resolver -/

/-- Modelled from the spec: one pass of the defining equation `x = 1 + c*x^2`
at absolute precision `n` (§4.3; the tutorial's guarded example uses `c = p`,
the unguarded one `c = 3` with `p = 5`). -/
def selfrefStep (p c n t : ℕ) : ℕ := (1 + c * t ^ 2) % p ^ n

/-- Modelled from the spec: the bounded stabilization loop of the resolver
(§4.3): iterate at most `fuel` times looking for a fixed point of `f`;
exceeding the bound raises `circularDefinition` rather than looping
forever. -/
def findFix (f : ℕ → ℕ) : ℕ → ℕ → Except Err ℕ
  | _, 0 => Except.error Err.circularDefinition
  | t, fuel + 1 => if f t = t then Except.ok t else findFix f (f t) fuel

/-- Modelled from the spec: digit-by-digit resolution of the bound
self-reference `x = 1 + c*x^2` (§4.3): the approximation at precision `n + 1`
is computed from the approximation at precision `n` (digits `< n`) by the
bounded stabilization loop. -/
def selfrefApprox (p c fuel : ℕ) : ℕ → Except Err ℕ
  | 0 => Except.ok 0
  | n + 1 =>
    match selfrefApprox p c fuel n with
    | Except.error e => Except.error e
    | Except.ok t => findFix (selfrefStep p c (n + 1)) t fuel

/-- The resolved value at precision `n` (0 when resolution failed). -/
def selfrefVal (p c fuel n : ℕ) : ℕ := ((selfrefApprox p c fuel n).toOption).getD 0

/-- Modelled from the spec: the lifecycle of a self-reference node (§4.3):
`unbound` after `selfref()`, `bound` once `set` has been called. -/
inductive NodeState where
  | unbound
  | bound (c : ℕ)
deriving DecidableEq

/-- Modelled from the spec: `set` binds exactly once; re-binding a bound node
is forbidden (§4.3). -/
def nodeSet : NodeState → ℕ → Except Err NodeState
  | NodeState.unbound, c => Except.ok (NodeState.bound c)
  | NodeState.bound _, _ => Except.error Err.invalidOperation

/-- Modelled from the spec: resolving a digit of a node (§4.3): resolution
never changes the binding state of the node. -/
def nodeResolve (p : ℕ) (st : NodeState) (fuel n : ℕ) : NodeState × Except Err ℕ :=
  match st with
  | NodeState.unbound => (st, Except.error Err.invalidOperation)
  | NodeState.bound c => (st, selfrefApprox p c fuel n)

/-! ### Helper lemmas -/

lemma digitsVal_nil (p : ℕ) : digitsVal p [] = 0 := rfl

lemma digitsVal_cons (p d : ℕ) (l : List ℕ) :
    digitsVal p (d :: l) = d + p * digitsVal p l := rfl

lemma add_mul_mod_of_lt (p x z m : ℕ) (hx : x < p) :
    (x + p * z) % (p * m) = x + p * (z % m) := by
  rcases Nat.eq_zero_or_pos m with hm | hm
  · subst hm
    simp
  · have hz : m * (z / m) + z % m = z := Nat.div_add_mod z m
    have hr : z % m < m := Nat.mod_lt z hm
    have hlt : x + p * (z % m) < p * m := by
      have h1 : p * (z % m + 1) ≤ p * m := Nat.mul_le_mul_left p (Nat.succ_le_of_lt hr)
      calc x + p * (z % m) < p + p * (z % m) := by omega
        _ = p * (z % m + 1) := by ring
        _ ≤ p * m := h1
    have hrw : x + p * z = x + p * (z % m) + p * m * (z / m) := by
      conv_lhs => rw [← hz]
      ring
    rw [hrw, Nat.add_mul_mod_self_left, Nat.mod_eq_of_lt hlt]

lemma addCarry_val (p : ℕ) (hp : 0 < p) :
    ∀ (a b : List ℕ) (c : ℕ), a.length = b.length →
      digitsVal p (addCarry p a b c) = (digitsVal p a + digitsVal p b + c) % p ^ a.length := by
  intro a
  induction a with
  | nil =>
    intro b c h
    have hb : b = [] := List.length_eq_zero.mp h.symm
    subst hb
    simp [addCarry, digitsVal, Nat.mod_one]
  | cons x xs ih =>
    intro b c h
    cases b with
    | nil => simp at h
    | cons y ys =>
      have hlen : xs.length = ys.length := by simpa using h
      have hstep : addCarry p (x :: xs) (y :: ys) c
          = (x + y + c) % p :: addCarry p xs ys ((x + y + c) / p) := rfl
      rw [hstep, digitsVal_cons, ih ys ((x + y + c) / p) hlen,
        digitsVal_cons, digitsVal_cons]
      have harg : (x + y + c) % p +
          p * (digitsVal p xs + digitsVal p ys + (x + y + c) / p)
          = x + p * digitsVal p xs + (y + p * digitsVal p ys) + c := by
        calc (x + y + c) % p + p * (digitsVal p xs + digitsVal p ys + (x + y + c) / p)
            = (x + y + c) % p + p * ((x + y + c) / p)
              + p * digitsVal p xs + p * digitsVal p ys := by ring
          _ = (x + y + c) + p * digitsVal p xs + p * digitsVal p ys := by
              rw [Nat.mod_add_div]
          _ = x + p * digitsVal p xs + (y + p * digitsVal p ys) + c := by ring
      rw [← add_mul_mod_of_lt p _ _ _ (Nat.mod_lt _ hp), harg,
        List.length_cons]
      congr 1
      rw [pow_succ]
      ring

lemma addCarry_length (p : ℕ) :
    ∀ (a b : List ℕ) (c : ℕ), a.length = b.length →
      (addCarry p a b c).length = a.length := by
  intro a
  induction a with
  | nil =>
    intro b c h
    have hb : b = [] := List.length_eq_zero.mp h.symm
    subst hb
    rfl
  | cons x xs ih =>
    intro b c h
    cases b with
    | nil => simp at h
    | cons y ys =>
      have hlen : xs.length = ys.length := by simpa using h
      have hstep : addCarry p (x :: xs) (y :: ys) c
          = (x + y + c) % p :: addCarry p xs ys ((x + y + c) / p) := rfl
      rw [hstep, List.length_cons, List.length_cons, ih ys ((x + y + c) / p) hlen]

lemma toDigits_length (p : ℕ) : ∀ (n x : ℕ), (toDigits p n x).length = n := by
  intro n
  induction n with
  | zero => intro x; rfl
  | succ n ih =>
    intro x
    show (x % p :: toDigits p n (x / p)).length = n + 1
    rw [List.length_cons, ih]

lemma valP_eq_zero_of_mod (p x : ℕ) (h : x % p ≠ 0) : valP p x = 0 := by
  cases x with
  | zero => exact absurd (Nat.zero_mod p) h
  | succ k =>
    show valPF p (k + 1) (k + 1) = 0
    rw [valPF, if_neg]
    rintro ⟨-, -, hmod⟩
    exact h hmod

lemma map_range_eq_iff (f g : ℕ → ℕ) (n : ℕ) :
    (List.range n).map f = (List.range n).map g ↔ ∀ k, k < n → f k = g k := by
  rw [List.map_inj_left]
  constructor
  · intro h k hk
    exact h k (List.mem_range.mpr hk)
  · intro h k hk
    exact h k (List.mem_range.mp hk)

lemma selfrefStep_congr (p c n : ℕ) (hc : p ∣ c) (s t : ℕ)
    (h : s % p ^ n = t % p ^ n) :
    selfrefStep p c (n + 1) s = selfrefStep p c (n + 1) t := by
  obtain ⟨d, hd⟩ := hc
  have hm : s ≡ t [MOD p ^ n] := h
  have hsq : s ^ 2 ≡ t ^ 2 [MOD p ^ n] := hm.pow 2
  have hdvd : p ^ (n + 1) ∣ c * p ^ n := ⟨d, by rw [hd]; ring⟩
  have hfin : 1 + c * s ^ 2 ≡ 1 + c * t ^ 2 [MOD p ^ (n + 1)] :=
    ((hsq.mul_left' c).of_dvd hdvd).add_left 1
  exact hfin

lemma selfref_step_ok (p c fuel n t : ℕ) (hp : 0 < p) (hc : p ∣ c) (hf : 2 ≤ fuel)
    (ht : selfrefApprox p c fuel n = Except.ok t)
    (hfix : t % p ^ n = (1 + c * t ^ 2) % p ^ n) :
    ∃ w, selfrefApprox p c fuel (n + 1) = Except.ok w ∧ w < p ^ (n + 1) ∧
      w % p ^ (n + 1) = (1 + c * w ^ 2) % p ^ (n + 1) ∧ w % p ^ n = t % p ^ n := by
  have happrox : selfrefApprox p c fuel (n + 1)
      = findFix (selfrefStep p c (n + 1)) t fuel := by
    simp only [selfrefApprox]
    rw [ht]
  by_cases hft : selfrefStep p c (n + 1) t = t
  · obtain ⟨k, rfl⟩ : ∃ k, fuel = k + 1 := ⟨fuel - 1, by omega⟩
    have hwlt : t < p ^ (n + 1) := by
      have h2 : selfrefStep p c (n + 1) t < p ^ (n + 1) := by
        show (1 + c * t ^ 2) % p ^ (n + 1) < p ^ (n + 1)
        exact Nat.mod_lt _ (pow_pos hp _)
      rwa [hft] at h2
    refine ⟨t, ?_, hwlt, ?_, rfl⟩
    · rw [happrox]
      show (if selfrefStep p c (n + 1) t = t then Except.ok t
        else findFix (selfrefStep p c (n + 1)) (selfrefStep p c (n + 1) t) k)
        = Except.ok t
      rw [if_pos hft]
    · rw [Nat.mod_eq_of_lt hwlt]
      exact hft.symm
  · have hst : selfrefStep p c (n + 1) t % p ^ n = t % p ^ n := by
      have h1 : selfrefStep p c (n + 1) t % p ^ n = (1 + c * t ^ 2) % p ^ n := by
        show (1 + c * t ^ 2) % p ^ (n + 1) % p ^ n = (1 + c * t ^ 2) % p ^ n
        exact Nat.mod_mod_of_dvd _ (pow_dvd_pow p (Nat.le_succ n))
      rw [h1, ← hfix]
    have hfs : selfrefStep p c (n + 1) (selfrefStep p c (n + 1) t)
        = selfrefStep p c (n + 1) t :=
      selfrefStep_congr p c n hc _ t hst
    obtain ⟨k, rfl⟩ : ∃ k, fuel = k + 2 := ⟨fuel - 2, by omega⟩
    have hwlt : selfrefStep p c (n + 1) t < p ^ (n + 1) := by
      show (1 + c * t ^ 2) % p ^ (n + 1) < p ^ (n + 1)
      exact Nat.mod_lt _ (pow_pos hp _)
    refine ⟨selfrefStep p c (n + 1) t, ?_, hwlt, ?_, hst⟩
    · rw [happrox]
      show (if selfrefStep p c (n + 1) t = t then Except.ok t
        else findFix (selfrefStep p c (n + 1)) (selfrefStep p c (n + 1) t) (k + 1))
        = Except.ok (selfrefStep p c (n + 1) t)
      rw [if_neg hft]
      show (if selfrefStep p c (n + 1) (selfrefStep p c (n + 1) t)
          = selfrefStep p c (n + 1) t
        then Except.ok (selfrefStep p c (n + 1) t)
        else findFix (selfrefStep p c (n + 1))
          (selfrefStep p c (n + 1) (selfrefStep p c (n + 1) t)) k)
        = Except.ok (selfrefStep p c (n + 1) t)
      rw [if_pos hfs]
    · rw [Nat.mod_eq_of_lt hwlt]
      exact hfs.symm

lemma selfref_invariant (p c fuel : ℕ) (hp : 0 < p) (hc : p ∣ c) (hf : 2 ≤ fuel) :
    ∀ n, selfrefApprox p c fuel n = Except.ok (selfrefVal p c fuel n) ∧
      selfrefVal p c fuel n < p ^ n ∧
      selfrefVal p c fuel n % p ^ n = (1 + c * selfrefVal p c fuel n ^ 2) % p ^ n := by
  intro n
  induction n with
  | zero =>
    refine ⟨rfl, ?_, ?_⟩
    · show (0 : ℕ) < p ^ 0
      rw [pow_zero]
      exact Nat.zero_lt_one
    · show (0 : ℕ) % p ^ 0 = (1 + c * 0 ^ 2) % p ^ 0
      rw [pow_zero, Nat.mod_one, Nat.mod_one]
  | succ n ih =>
    obtain ⟨hok, hlt, hfix⟩ := ih
    obtain ⟨w, hw_ok, hw_lt, hw_fix, hw_pre⟩ :=
      selfref_step_ok p c fuel n (selfrefVal p c fuel n) hp hc hf hok hfix
    have hval : selfrefVal p c fuel (n + 1) = w := by
      rw [selfrefVal, hw_ok]
      rfl
    rw [hval]
    exact ⟨hw_ok, hw_lt, hw_fix⟩

lemma selfref_unguarded_cycle :
    ∀ (m s : ℕ), (s = 4 ∨ s = 24) →
      findFix (selfrefStep 5 3 2) s m = Except.error Err.circularDefinition := by
  intro m
  induction m with
  | zero =>
    intro s _
    rfl
  | succ m ih =>
    intro s hs
    rcases hs with rfl | rfl
    · show (if selfrefStep 5 3 2 4 = 4 then Except.ok 4
        else findFix (selfrefStep 5 3 2) (selfrefStep 5 3 2 4) m)
        = Except.error Err.circularDefinition
      rw [show selfrefStep 5 3 2 4 = 24 from by decide,
        if_neg (by decide : ¬(24 = 4))]
      exact ih 24 (Or.inr rfl)
    · show (if selfrefStep 5 3 2 24 = 24 then Except.ok 24
        else findFix (selfrefStep 5 3 2) (selfrefStep 5 3 2 24) m)
        = Except.error Err.circularDefinition
      rw [show selfrefStep 5 3 2 24 = 4 from by decide,
        if_neg (by decide : ¬(4 = 24))]
      exact ih 4 (Or.inl rfl)

lemma selfref_unguarded_level1 :
    ∀ fuel, selfrefApprox 5 3 fuel 1 = Except.ok 4 ∨
      selfrefApprox 5 3 fuel 1 = Except.error Err.circularDefinition := by
  intro fuel
  match fuel with
  | 0 => exact Or.inr rfl
  | 1 => exact Or.inr rfl
  | 2 => exact Or.inr rfl
  | k + 3 =>
    left
    show findFix (selfrefStep 5 3 1) 0 (k + 3) = Except.ok 4
    show (if selfrefStep 5 3 1 0 = 0 then Except.ok 0
      else findFix (selfrefStep 5 3 1) (selfrefStep 5 3 1 0) (k + 2)) = Except.ok 4
    rw [show selfrefStep 5 3 1 0 = 1 from by decide, if_neg (by decide : ¬(1 = 0))]
    show (if selfrefStep 5 3 1 1 = 1 then Except.ok 1
      else findFix (selfrefStep 5 3 1) (selfrefStep 5 3 1 1) (k + 1)) = Except.ok 4
    rw [show selfrefStep 5 3 1 1 = 4 from by decide, if_neg (by decide : ¬(4 = 1))]
    show (if selfrefStep 5 3 1 4 = 4 then Except.ok 4
      else findFix (selfrefStep 5 3 1) (selfrefStep 5 3 1 4) k) = Except.ok 4
    rw [if_pos (by decide : selfrefStep 5 3 1 4 = 4)]

lemma selfref_unguarded_diverges_at_two :
    ∀ fuel, selfrefApprox 5 3 fuel 2 = Except.error Err.circularDefinition := by
  intro fuel
  have happrox : selfrefApprox 5 3 fuel 2
      = match selfrefApprox 5 3 fuel 1 with
        | Except.error e => Except.error e
        | Except.ok t => findFix (selfrefStep 5 3 2) t fuel := rfl
  rcases selfref_unguarded_level1 fuel with h | h
  · rw [happrox, h]
    exact selfref_unguarded_cycle fuel 4 (Or.inl rfl)
  · rw [happrox, h]

lemma selfref_unguarded_diverges (fuel n : ℕ) (hn : 2 ≤ n) :
    selfrefApprox 5 3 fuel n = Except.error Err.circularDefinition := by
  induction n with
  | zero => omega
  | succ n ih =>
    rcases Nat.lt_or_ge n 2 with h2 | h2
    · have hn1 : n = 1 := by omega
      subst hn1
      exact selfref_unguarded_diverges_at_two fuel
    · have happrox : selfrefApprox 5 3 fuel (n + 1)
          = match selfrefApprox 5 3 fuel n with
            | Except.error e => Except.error e
            | Except.ok t => findFix (selfrefStep 5 3 (n + 1)) t fuel := rfl
      rw [happrox, ih h2]

/-! ### Claim theorems -/

/-- C8: under the fixed-modulus policy with `n` digits, digit-wise addition
with carry satisfies `int(a + b) = (int(a) + int(b)) mod p^n`, and the
result always has exactly `n` digits (no precision loss is tracked). -/
theorem fm_add_modular (p n : ℕ) (a b : List ℕ) (hp : 0 < p)
    (ha : a.length = n) (hb : b.length = n) :
    digitsVal p (fmAdd p a b) = (digitsVal p a + digitsVal p b) % p ^ n ∧
    (fmAdd p a b).length = n := by
  have hab : a.length = b.length := ha.trans hb.symm
  constructor
  · have hv := addCarry_val p hp a b 0 hab
    rw [ha] at hv
    simpa [fmAdd] using hv
  · have hl := addCarry_length p a b 0 hab
    rw [ha] at hl
    simpa [fmAdd] using hl

/-- Witness for C8 at the tutorial's fixed-modulus doctest
(`R(375) + R(105)` in `Zp(5, 10, fixed-mod)`). -/
theorem fm_add_modular_witness :
    0 < 5 ∧
    (digitsVal 5 (fmAdd 5 (fmOfNat 5 10 375) (fmOfNat 5 10 105)) =
        (digitsVal 5 (fmOfNat 5 10 375) + digitsVal 5 (fmOfNat 5 10 105)) % 5 ^ 10 ∧
      (fmAdd 5 (fmOfNat 5 10 375) (fmOfNat 5 10 105)).length = 10) :=
  ⟨by decide, fm_add_modular 5 10 (fmOfNat 5 10 375) (fmOfNat 5 10 105)
    (by decide) (by decide) (by decide)⟩

/-- C4: the concrete capped-absolute scenario of the tutorial: with `p = 5`
and cap 10, `a = 375` has valuation 3 and expansion `3·5^3`, `b = 105` has
valuation 1 and expansion `5 + 4·5^2`, `a + b` is `5 + 4·5^2 + 3·5^3` at
absolute precision 10, and `a // 5` is `3·5^2` at absolute precision 9. -/
theorem capped_abs_concrete_scenario :
    caOfNat 5 10 375 = ⟨375, 10⟩ ∧ caValuation 5 (caOfNat 5 10 375) = 3 ∧
    375 = 3 * 5 ^ 3 ∧
    caOfNat 5 10 105 = ⟨105, 10⟩ ∧ caValuation 5 (caOfNat 5 10 105) = 1 ∧
    105 = 5 + 4 * 5 ^ 2 ∧
    caAdd 5 (caOfNat 5 10 375) (caOfNat 5 10 105) = ⟨5 + 4 * 5 ^ 2 + 3 * 5 ^ 3, 10⟩ ∧
    caFloordivP 5 (caOfNat 5 10 375) = ⟨3 * 5 ^ 2, 9⟩ := by
  decide

/-- C7: lazy prefix stability: for `m ≤ n` the first `m` digits of
`at_precision_absolute(n)` are exactly `at_precision_absolute(m)`; the memo
cache only grows (the old memo is a prefix of the new one and the frontier
only moves forward), a valid memo is never recomputed or revised, and
`precision_absolute()` reports `+∞` for any lazy element. -/
theorem lazy_prefix_stability (x : LazyElem) (m n k : ℕ) (hmn : m ≤ n) :
    (atPrecisionAbsolute x n).take m = atPrecisionAbsolute x m ∧
    x.memo <+: (ensureMaterialized x k).memo ∧
    x.memo.length ≤ (ensureMaterialized x k).memo.length ∧
    (validMemo x → validMemo (ensureMaterialized x k)) ∧
    precisionAbsolute x = ⊤ := by
  have hpre : x.memo <+: (ensureMaterialized x k).memo := by
    by_cases hk : k ≤ x.memo.length
    · rw [ensureMaterialized, if_pos hk]
    · rw [ensureMaterialized, if_neg hk]
      exact List.prefix_append _ _
  refine ⟨?_, hpre, hpre.length_le, ?_, rfl⟩
  · rw [atPrecisionAbsolute, atPrecisionAbsolute, ← List.map_take, List.take_range,
      min_eq_left hmn]
  · intro hv
    by_cases hk : k ≤ x.memo.length
    · rw [ensureMaterialized, if_pos hk]
      exact hv
    · rw [ensureMaterialized, if_neg hk]
      rw [validMemo] at hv ⊢
      rw [atPrecisionAbsolute] at hv ⊢
      simp only [List.length_append, List.length_map, List.length_range]
      conv_rhs => rw [List.range_add]
      rw [List.map_append, List.map_map]
      congr 1

/-- Witness for C7 on a concrete lazy element with a two-digit memo. -/
theorem lazy_prefix_stability_witness :
    (2 : ℕ) ≤ 5 ∧
    ((atPrecisionAbsolute ⟨fun i => i % 3, [0, 1]⟩ 5).take 2 =
        atPrecisionAbsolute ⟨fun i => i % 3, [0, 1]⟩ 2 ∧
      (⟨fun i => i % 3, [0, 1]⟩ : LazyElem).memo <+:
        (ensureMaterialized ⟨fun i => i % 3, [0, 1]⟩ 4).memo ∧
      (⟨fun i => i % 3, [0, 1]⟩ : LazyElem).memo.length ≤
        (ensureMaterialized ⟨fun i => i % 3, [0, 1]⟩ 4).memo.length ∧
      (validMemo ⟨fun i => i % 3, [0, 1]⟩ →
        validMemo (ensureMaterialized ⟨fun i => i % 3, [0, 1]⟩ 4)) ∧
      precisionAbsolute ⟨fun i => i % 3, [0, 1]⟩ = ⊤) :=
  ⟨by decide, lazy_prefix_stability ⟨fun i => i % 3, [0, 1]⟩ 2 5 4 (by decide)⟩

/-- C3: equality between lazy elements: a difference at a digit index below
the queried (default) precision yields the definitive answer `false`;
when all digits below that precision agree (the elements being equal, or
differing only beyond it) the unconditional comparison raises
`precisionError`; a definitive boolean is always obtained by explicitly
bounding the precision. -/
theorem lazy_equality_contract (x y : LazyElem) (pr : ℕ) :
    ((∃ k, k < pr ∧ x.gen k ≠ y.gen k) → lazyEqUncond pr x y = Except.ok false) ∧
    ((∀ k, k < pr → x.gen k = y.gen k) →
      lazyEqUncond pr x y = Except.error Err.precisionError) ∧
    (∀ n, lazyEqAtPrec n x y = true ↔ ∀ k, k < n → x.gen k = y.gen k) := by
  have hany : ((List.range pr).any fun k => x.gen k != y.gen k) = true ↔
      ∃ k, k < pr ∧ x.gen k ≠ y.gen k := by
    rw [List.any_eq_true]
    constructor
    · rintro ⟨k, hk, hne⟩
      exact ⟨k, List.mem_range.mp hk, by simpa using hne⟩
    · rintro ⟨k, hk, hne⟩
      exact ⟨k, List.mem_range.mpr hk, by simpa using hne⟩
  refine ⟨?_, ?_, ?_⟩
  · intro h
    rw [lazyEqUncond, if_pos (hany.mpr h)]
  · intro h
    rw [lazyEqUncond, if_neg ?_]
    intro hc
    obtain ⟨k, hk, hne⟩ := hany.mp hc
    exact hne (h k hk)
  · intro n
    rw [lazyEqAtPrec, beq_iff_eq, atPrecisionAbsolute, atPrecisionAbsolute,
      map_range_eq_iff]

/-- Witness for C3: the tutorial's `a == b` (difference at digit 0, answer
`False`) and `b == b + 5^50` (first difference at digit 50, beyond the
default precision 20: `PrecisionError`) scenarios, plus the definitive
bounded-precision comparison. -/
theorem lazy_equality_contract_witness :
    lazyEqUncond 20 ⟨fun _ => 1, []⟩ ⟨fun k => if k = 0 then 2 else 1, []⟩ =
      Except.ok false ∧
    lazyEqUncond 20 ⟨fun _ => 1, []⟩ ⟨fun k => if 50 ≤ k then 3 else 1, []⟩ =
      Except.error Err.precisionError ∧
    lazyEqAtPrec 20 ⟨fun _ => 1, []⟩ ⟨fun k => if 50 ≤ k then 3 else 1, []⟩ = true :=
  ⟨(lazy_equality_contract ⟨fun _ => 1, []⟩ ⟨fun k => if k = 0 then 2 else 1, []⟩ 20).1
      ⟨0, by decide, by decide⟩,
   (lazy_equality_contract ⟨fun _ => 1, []⟩ ⟨fun k => if 50 ≤ k then 3 else 1, []⟩ 20).2.1
      (by decide),
   ((lazy_equality_contract ⟨fun _ => 1, []⟩ ⟨fun k => if 50 ≤ k then 3 else 1, []⟩ 20).2.2
      20).mpr (by decide)⟩

/-- C9: under the capped-relative policy, for unit-part elements `a` and `b`
multiplication adds the valuations and keeps the minimum of the two relative
precisions — multiplication never loses relative precision beyond what the
inputs already lack. -/
theorem cr_mul_valuation_relprec (p : ℕ) (a b : CRElem) (hp : p.Prime)
    (ha : a.unitPart % p ≠ 0) (hb : b.unitPart % p ≠ 0)
    (har : 0 < a.rprec) (hbr : 0 < b.rprec) :
    (crMul p a b).valu = a.valu + b.valu ∧
    (crMul p a b).rprec = min a.rprec b.rprec := by
  have hm : 0 < min a.rprec b.rprec := lt_min har hbr
  have hdvd : p ∣ p ^ min a.rprec b.rprec := dvd_pow_self p (Nat.pos_iff_ne_zero.mp hm)
  have hmodp : a.unitPart * b.unitPart % p ≠ 0 := by
    intro h0
    rcases (Nat.Prime.dvd_mul hp).mp (Nat.dvd_of_mod_eq_zero h0) with h | h
    · exact ha (Nat.mod_eq_zero_of_dvd h)
    · exact hb (Nat.mod_eq_zero_of_dvd h)
  have hu'modp : a.unitPart * b.unitPart % p ^ min a.rprec b.rprec % p ≠ 0 := by
    rw [Nat.mod_mod_of_dvd _ hdvd]
    exact hmodp
  have hu'0 : a.unitPart * b.unitPart % p ^ min a.rprec b.rprec ≠ 0 := by
    intro h
    rw [h] at hu'modp
    exact hu'modp (Nat.zero_mod p)
  have hval0 : valP p (a.unitPart * b.unitPart % p ^ min a.rprec b.rprec) = 0 :=
    valP_eq_zero_of_mod p _ hu'modp
  rw [crMul, crNorm]
  simp only [if_neg hu'0, hval0]
  constructor
  · simp
  · simp

/-- Witness for C9 at the tutorial's capped-relative doctest
(`a = R(375)`, `b = K(105)`, `a * b = 3·5^4 + 2·5^5 + 2·5^6 + O(5^14)`). -/
theorem cr_mul_valuation_relprec_witness :
    Nat.Prime 5 ∧
    ((crMul 5 ⟨3, 3, 10⟩ ⟨1, 21, 10⟩).valu = 3 + 1 ∧
      (crMul 5 ⟨3, 3, 10⟩ ⟨1, 21, 10⟩).rprec = min 10 10) :=
  ⟨by norm_num, cr_mul_valuation_relprec 5 ⟨3, 3, 10⟩ ⟨1, 21, 10⟩ (by norm_num)
    (by decide) (by decide) (by decide) (by decide)⟩

/-- C5 counterexample: in the capped-absolute ring of the tutorial the
division `1 / (c + b)` succeeds (tutorial lines 241-245) although the
divisor `c + b = 180` has valuation 1, hence is not a unit of the ring —
refuting the claim that `a / b` fails whenever `b` is not a unit, for every
pair of elements of the same ring. -/
theorem ca_div_nonunit_succeeds :
    caValuation 5 (caAdd 5 (caFloordivP 5 (caOfNat 5 10 375)) (caOfNat 5 10 105)) = 1 ∧
    caDiv 5 (caOfNat 5 10 1)
        (caAdd 5 (caFloordivP 5 (caOfNat 5 10 375)) (caOfNat 5 10 105)) =
      Except.ok ⟨-1, 249566, 8⟩ := by
  constructor
  · decide
  · decide

/-- C5 (amended): in a fixed-modulus ring, division fails with
`invalidOperation` whenever the divisor is not a unit; the error is
surfaced, never silently replaced by a floor-division result; division by a
unit succeeds. On capped-absolute operands division by any nonzero divisor
(unit or not) succeeds, promoting into the capped-relative field. -/
theorem div_unit_contract (p n : ℕ) (a b : List ℕ) (x y : CAElem) :
    (digitsVal p b % p = 0 → fmDiv p n a b = Except.error Err.invalidOperation) ∧
    (digitsVal p b % p ≠ 0 → ∃ q, fmDiv p n a b = Except.ok q) ∧
    (y.val ≠ 0 → ∃ z, caDiv p x y = Except.ok z) := by
  refine ⟨?_, ?_, ?_⟩
  · intro h
    rw [fmDiv, if_pos h]
  · intro h
    rw [fmDiv, if_neg h]
    exact ⟨_, rfl⟩
  · intro h
    rw [caDiv, if_neg h]
    exact ⟨_, rfl⟩

/-- Witness for C5 (amended) at the tutorial's fixed-modulus doctests
(`a / 5` raises, `a / 2` succeeds) and a capped-absolute division. -/
theorem div_unit_contract_witness :
    digitsVal 5 (fmOfNat 5 10 5) % 5 = 0 ∧
    fmDiv 5 10 (fmOfNat 5 10 375) (fmOfNat 5 10 5) = Except.error Err.invalidOperation ∧
    digitsVal 5 (fmOfNat 5 10 2) % 5 ≠ 0 ∧
    (∃ q, fmDiv 5 10 (fmOfNat 5 10 375) (fmOfNat 5 10 2) = Except.ok q) ∧
    (∃ z, caDiv 5 (caOfNat 5 10 1) (caOfNat 5 10 2) = Except.ok z) :=
  ⟨by decide,
   (div_unit_contract 5 10 (fmOfNat 5 10 375) (fmOfNat 5 10 5)
      (caOfNat 5 10 1) (caOfNat 5 10 2)).1 (by decide),
   by decide,
   (div_unit_contract 5 10 (fmOfNat 5 10 375) (fmOfNat 5 10 2)
      (caOfNat 5 10 1) (caOfNat 5 10 2)).2.1 (by decide),
   (div_unit_contract 5 10 (fmOfNat 5 10 375) (fmOfNat 5 10 2)
      (caOfNat 5 10 1) (caOfNat 5 10 2)).2.2 (by decide)⟩

/-- C6: when division succeeds on capped-absolute operands the result is a
capped-relative field element (`CRElem`) — division is the operation that
changes representational class; concretely the tutorial's `1 / (c + b)` is
the capped-relative element with valuation `-1`, unit part
`1 + 3·5 + 2·5^2 + 5^3 + 4·5^4 + 4·5^5 + 3·5^7` and relative precision 8
(absolute precision `-1 + 8 = 7`, matching `O(5^7)`). -/
theorem ca_div_promotes_to_capped_rel (p : ℕ) (x y : CAElem) (hy : y.val ≠ 0) :
    (∃ z : CRElem, caDiv p x y = Except.ok z) ∧
    caDiv 5 (caOfNat 5 10 1)
        (caAdd 5 (caFloordivP 5 (caOfNat 5 10 375)) (caOfNat 5 10 105)) =
      Except.ok ⟨-1, 1 + 3 * 5 + 2 * 5 ^ 2 + 5 ^ 3 + 4 * 5 ^ 4 + 4 * 5 ^ 5 + 3 * 5 ^ 7, 8⟩ := by
  constructor
  · rw [caDiv, if_neg hy]
    exact ⟨_, rfl⟩
  · decide

/-- Witness for C6 with the unit divisor `2`. -/
theorem ca_div_promotes_witness :
    (caOfNat 5 10 2).val ≠ 0 ∧
    ∃ z : CRElem, caDiv 5 (caOfNat 5 10 1) (caOfNat 5 10 2) = Except.ok z :=
  ⟨by decide,
   (ca_div_promotes_to_capped_rel 5 (caOfNat 5 10 1) (caOfNat 5 10 2) (by decide)).1⟩

/-- C10: in a fixed-modulus ring floor division is defined for an arbitrary
nonzero divisor, not only the prime `p`: for the tutorial's `a = 375`,
`b = 105`, true division `a / b` raises while `a // b` succeeds and returns
the full 10-digit value `3·5^2 + 3·5^3 + 2·5^5 + 5^6 + 4·5^7 + 2·5^8 +
3·5^9` (even though that result is not known to the claimed precision);
in general every nonzero divisor yields a full `n`-digit result. -/
theorem fm_floordiv_arbitrary_divisor (p n : ℕ) (a b : List ℕ)
    (hb : digitsVal p b ≠ 0) :
    (∃ q, fmFloordiv p n a b = Except.ok q ∧ q.length = n) ∧
    fmDiv 5 10 (fmOfNat 5 10 375) (fmOfNat 5 10 105) =
      Except.error Err.invalidOperation ∧
    fmFloordiv 5 10 (fmOfNat 5 10 375) (fmOfNat 5 10 105) =
      Except.ok (fmOfNat 5 10
        (3 * 5 ^ 2 + 3 * 5 ^ 3 + 2 * 5 ^ 5 + 5 ^ 6 + 4 * 5 ^ 7 + 2 * 5 ^ 8 + 3 * 5 ^ 9)) := by
  refine ⟨?_, by decide, by decide⟩
  rw [fmFloordiv, if_neg hb]
  exact ⟨_, rfl, toDigits_length p n _⟩

/-- Witness for C10 at the tutorial's `a // b` doctest. -/
theorem fm_floordiv_arbitrary_divisor_witness :
    digitsVal 5 (fmOfNat 5 10 105) ≠ 0 ∧
    ∃ q, fmFloordiv 5 10 (fmOfNat 5 10 375) (fmOfNat 5 10 105) = Except.ok q ∧
      q.length = 10 :=
  ⟨by decide,
   (fm_floordiv_arbitrary_divisor 5 10 (fmOfNat 5 10 375) (fmOfNat 5 10 105)
      (by decide)).1⟩

/-- C1: for the guarded self-referential definition `x = 1 + p·x^2` over a
lazy ring with `p ≥ 2`, resolution succeeds at every precision `n` (the
approximation at precision `n + 1` is computed from the one at precision
`n`, i.e. from digits `< n` only, as witnessed by the final prefix
congruence), and the resolved value satisfies `x ≡ 1 + p·x^2 (mod p^n)` for
every requested precision `n`. -/
theorem selfref_guarded_converges (p fuel n : ℕ) (hp : 2 ≤ p) (hf : 2 ≤ fuel) :
    selfrefApprox p p fuel n = Except.ok (selfrefVal p p fuel n) ∧
    selfrefVal p p fuel n < p ^ n ∧
    selfrefVal p p fuel n % p ^ n = (1 + p * selfrefVal p p fuel n ^ 2) % p ^ n ∧
    selfrefVal p p fuel (n + 1) % p ^ n = selfrefVal p p fuel n % p ^ n := by
  have hp0 : 0 < p := by omega
  obtain ⟨hok, hlt, hfix⟩ := selfref_invariant p p fuel hp0 dvd_rfl hf n
  obtain ⟨w, hw_ok, hw_lt, hw_fix, hw_pre⟩ :=
    selfref_step_ok p p fuel n (selfrefVal p p fuel n) hp0 dvd_rfl hf hok hfix
  have hval : selfrefVal p p fuel (n + 1) = w := by
    rw [selfrefVal, hw_ok]
    rfl
  refine ⟨hok, hlt, hfix, ?_⟩
  rw [hval]
  exact hw_pre

/-- Witness for C1 at the tutorial's doctest `x.set(1 + 5*x^2)` with
`p = 5`, twenty digits requested. -/
theorem selfref_guarded_converges_witness :
    (2 ≤ 5 ∧ 2 ≤ 2) ∧
    (selfrefApprox 5 5 2 20 = Except.ok (selfrefVal 5 5 2 20) ∧
      selfrefVal 5 5 2 20 < 5 ^ 20 ∧
      selfrefVal 5 5 2 20 % 5 ^ 20 = (1 + 5 * selfrefVal 5 5 2 20 ^ 2) % 5 ^ 20 ∧
      selfrefVal 5 5 2 21 % 5 ^ 20 = selfrefVal 5 5 2 20 % 5 ^ 20) :=
  ⟨⟨by decide, by decide⟩, selfref_guarded_converges 5 2 20 (by decide) (by decide)⟩

/-- C2: for the unguarded self-referential definition `y = 1 + 3·y^2` with
`p = 5`, requesting any digit beyond the independently known ones (any
precision `n ≥ 2`) raises `circularDefinition` for EVERY internal iteration
bound `fuel` — the bounded stabilization loop terminates with the error
instead of hanging — while the node remains `bound`, and retrying the same
request on the returned node fails identically. -/
theorem selfref_unguarded_circular (fuel n : ℕ) (hn : 2 ≤ n) :
    (nodeResolve 5 (NodeState.bound 3) fuel n).2 = Except.error Err.circularDefinition ∧
    (nodeResolve 5 (NodeState.bound 3) fuel n).1 = NodeState.bound 3 ∧
    (nodeResolve 5 ((nodeResolve 5 (NodeState.bound 3) fuel n).1) fuel n).2 =
      Except.error Err.circularDefinition := by
  refine ⟨?_, rfl, ?_⟩
  · exact selfref_unguarded_diverges fuel n hn
  · exact selfref_unguarded_diverges fuel n hn

/-- Witness for C2 at the tutorial's doctest `y.set(1 + 3*y^2)`, precision
2, iteration bound 5. -/
theorem selfref_unguarded_circular_witness :
    2 ≤ 2 ∧
    ((nodeResolve 5 (NodeState.bound 3) 5 2).2 = Except.error Err.circularDefinition ∧
      (nodeResolve 5 (NodeState.bound 3) 5 2).1 = NodeState.bound 3 ∧
      (nodeResolve 5 ((nodeResolve 5 (NodeState.bound 3) 5 2).1) 5 2).2 =
        Except.error Err.circularDefinition) :=
  ⟨by decide, selfref_unguarded_circular 5 2 (by decide)⟩

end PadicCore
